import Mathlib

set_option linter.unusedVariables false

/-!
Shallow embedding of the paper-harvesting pipeline in `main.py`:
identity normalization, the translation retry loop, per-paper code-link
resolution, the JSON store (load, harvest-merge, repair pass) and the
markdown renderer (sorting and math prettification).

Python dicts are modelled as insertion-ordered association lists with
string keys; Python strings are modelled as `String` / `List Char`;
network calls are passed in as explicit oracle functions returning
`Except`; code paths that can raise an uncaught exception return
`Option` / `Except`.
-/

/-- Python `dict` with string keys: an insertion-ordered association list. -/
abbrev PyDict (V : Type) := List (String × V)

/-- First-match lookup: Python `d[k]` / `d.get(k)` (keys of a real Python
dict are unique, so first match is the match). -/
def alookup {V : Type} : PyDict V → String → Option V
  | [], _ => none
  | (k, v) :: t, a => if a = k then some v else alookup t a

/-- The key list of a dict, in insertion order (`list(d.keys())`). -/
def dkeys {V : Type} (m : PyDict V) : List String := m.map Prod.fst

/-- Python `d[k] = combine (d[k]) v` when `k` is present (value replaced in
place, position kept) and `d[k] = v` when it is not (appended at the end).
With `combine old v = v` this is plain Python assignment `d[k] = v`. -/
def upsertWith {V : Type} (combine : V → V → V) : PyDict V → String → V → PyDict V
  | [], k, v => [(k, v)]
  | (k0, v0) :: t, k, v =>
      if k0 = k then (k0, combine v0 v) :: t else (k0, v0) :: upsertWith combine t k v

/-- Python dict assignment `d[k] = v`. -/
def dassign {V : Type} (m : PyDict V) (k : String) (v : V) : PyDict V :=
  upsertWith (fun _ v => v) m k v

/-- Python `d.update(p)`: assign every entry of `p` into `d`, in order. -/
def dupdate {V : Type} (m p : PyDict V) : PyDict V :=
  p.foldl (fun m kv => dassign m kv.1 kv.2) m

/-! ## Translater.translate (main.py lines 54-80)

The external `generate_content` call is modelled as an oracle
`call : Nat → Option String` giving, for each 0-based attempt index, either
the response text or a failure (a raised exception). The loop makes at most
`NUM_RETRIES = 3` attempts; after a failed attempt it sleeps the current
`retry_seconds` (initially 1) and doubles it; when `retry_count` reaches
`NUM_RETRIES` the `finally` block sets the result to the untranslated input. -/

/-- Result of one run of `Translater.translate`: the returned string, the
number of calls made, and the total seconds slept across backoffs. -/
structure TranslateRun where
  result : String
  attempts : Nat
  slept : Nat
  deriving Repr, DecidableEq

/-- The `while retry_count < NUM_RETRIES` loop of `Translater.translate`,
structured by the number of remaining attempts. -/
def translateLoop (call : Nat → Option String) (text : String) :
    Nat → Nat → Nat → Nat → TranslateRun
  | 0, attempt, _, slept => ⟨text, attempt, slept⟩
  | fuel + 1, attempt, retrySeconds, slept =>
      match call attempt with
      | some r => ⟨r, attempt + 1, slept⟩
      | none => translateLoop call text fuel (attempt + 1) (retrySeconds * 2) (slept + retrySeconds)

/-- `Translater.translate`: `NUM_RETRIES = 3`, initial backoff 1 second. -/
def Translater.translate (call : Nat → Option String) (text : String) : TranslateRun :=
  translateLoop call text 3 0 1 0

/-! ## Identity normalization (main.py lines 223-229)

`ver_pos = paper_id.find("v")`: Python `str.find` returns the index of the
first occurrence or `-1`; the key is `paper_id[0:ver_pos]`, so the raw id is
truncated at its first `'v'` (or kept whole when there is none). -/

/-- Canonical key derivation from a raw arXiv short id. -/
def paper_key (paper_id : String) : String :=
  match paper_id.data.findIdx? (fun c => c = 'v') with
  | none => paper_id
  | some i => ⟨paper_id.data.take i⟩

/-- Version-suffix test, modelled from the spec: a raw id carries a version
marker when it ends in `'v'` followed by one or more decimal digits. -/
def hasVersionSuffix (s : String) : Bool :=
  let r := s.data.reverse
  let ds := r.takeWhile Char.isDigit
  decide (ds ≠ []) && decide ((r.drop ds.length).head? = some 'v')

/-! ## The fold of repeated dict writes

`runUpserts f m ps` performs, in order, one `upsertWith f` write per entry of
`ps` into `m`. Both the harvest-merge (`update_json_file`, with `f` combining
whole topic buckets via `dict.update`) and a single `dict.update` (with `f`
overwriting the value) are such folds. -/

/-- Sequence of dict writes, in order. -/
def runUpserts {V : Type} (f : V → V → V) (m : PyDict V) (ps : PyDict V) : PyDict V :=
  ps.foldl (fun m kv => upsertWith f m kv.1 kv.2) m

/-- Combined value after folding `f` over a list of incoming values,
starting from an optional existing value (a fresh key keeps the first
incoming value as-is). -/
def accV {V : Type} (f : V → V → V) (o : Option V) (vs : List V) : Option V :=
  vs.foldl (fun acc v => some (acc.elim v (fun w => f w v))) o

/-- The values carried by entries of `ps` whose key is `a`, in order. -/
def valsAt {V : Type} (ps : PyDict V) (a : String) : List V :=
  ps.filterMap (fun kv => if kv.1 = a then some kv.2 else none)

/-! ## The store and the harvest-merge (main.py lines 356-380)

A store maps a topic name to a topic bucket, and a bucket maps a canonical
paper id to the pipe-delimited record string. `update_json_file` loads the
store, merges each dict of `data_dict` into it topic by topic
(`json_data[keyword].update(papers)` for a known topic,
`json_data[keyword] = papers` for a new one) and dumps the result back. -/

abbrev Bucket := PyDict String

abbrev Store := PyDict Bucket

/-- The in-memory merge loop of `update_json_file` (main.py lines 370-377). -/
def update_json_data (json_data : Store) (data_dict : List Store) : Store :=
  data_dict.foldl
    (fun j data => data.foldl (fun j2 kv => upsertWith dupdate j2 kv.1 kv.2) j) json_data

/-! JSON serialization of the store (`json.dump`): keys in dict order,
`", "` and `": "` separators, strings quoted with the usual escapes. Only
determinism matters below: equal stores dump to identical bytes. -/

/-- One character of a JSON string literal. -/
def jsonEscapeChar (c : Char) : List Char :=
  if c = '"' then ['\\', '"']
  else if c = '\\' then ['\\', '\\']
  else if c = '\n' then ['\\', 'n']
  else if c = '\t' then ['\\', 't']
  else if c = '\r' then ['\\', 'r']
  else [c]

/-- A JSON string literal. -/
def jsonStringLit (s : String) : String :=
  ⟨'"' :: (s.data.map jsonEscapeChar).flatten ++ ['"']⟩

/-- Serialized topic bucket. -/
def json_dump_bucket (b : Bucket) : String :=
  "\x7b" ++ String.intercalate ", "
    (b.map (fun kv => jsonStringLit kv.1 ++ ": " ++ jsonStringLit kv.2)) ++ "\x7d"

/-- Serialized store, as written back by `update_json_file`. -/
def json_dump_store (m : Store) : String :=
  "\x7b" ++ String.intercalate ", "
    (m.map (fun kv => jsonStringLit kv.1 ++ ": " ++ json_dump_bucket kv.2)) ++ "\x7d"

/-! ## get_daily_papers (main.py lines 170-287)

One harvested search result, with the fields that flow into the record
string (`comments` is overwritten with `None` at line 276 and never reaches
the output; authors/category only feed log lines). The abstract is the text
after newline collapsing and the optional translation step. -/

structure RawPaper where
  paper_id : String
  title : String
  abstract : String
  update_time : String
  deriving Repr, DecidableEq

/-- Code-link registry oracle (requests.get(base_url + id).json() plus the
"official" field check): `.error` is a raised transport/parse error,
`.ok (some url)` an official implementation URL, `.ok none` no official
entry. -/
abbrev Registry := String → Except String (Option String)

/-- `arxiv_url + "abs/" + paper_key` (main.py line 229). -/
def paper_url_of (key : String) : String := "http://arxiv.org/abs/" ++ key

/-- Record string built when an official code link was resolved
(main.py lines 243-252). -/
def officialRow (p : RawPaper) (key repo : String) : String :=
  "|**" ++ p.update_time ++ "**|**" ++ p.title ++ "**|[" ++ key ++ "]("
    ++ paper_url_of key ++ ")|**[link](" ++ repo ++ ")**|**" ++ p.abstract ++ "**|\n"

/-- Record string built when no code link is available
(main.py lines 266-268). -/
def nullRow (p : RawPaper) (key : String) : String :=
  "|**" ++ p.update_time ++ "**|**" ++ p.title ++ "**|[" ++ key ++ "]("
    ++ paper_url_of key ++ ")|null|**" ++ p.abstract ++ "**|\n"

/-- Body of the per-result loop of `get_daily_papers` acting on the
`content` dict: the whole code-link block sits in one `try`; an exception
from the registry lookup is caught at line 282 and only logged, so the
paper's record is never written for this run. -/
def get_daily_papers_step (registry : Registry) (content : Bucket) (p : RawPaper) : Bucket :=
  let key := paper_key p.paper_id
  match registry p.paper_id with
  | .error _ => content
  | .ok (some repo) => dassign content key (officialRow p key repo)
  | .ok none => dassign content key (nullRow p key)

/-- The `content` dict returned (inside `{topic: content}`) by
`get_daily_papers` for one topic's search results. -/
def get_daily_papers (registry : Registry) (results : List RawPaper) : Bucket :=
  results.foldl (get_daily_papers_step registry) []

/-! ## update_paper_links (main.py lines 290-353)

The weekly repair pass re-parses every stored record with
`parse_arxiv_string`, re-serializes it in place, and, for records failing
the `"|null|" in contents` valid-link test, probes the registry once and
substitutes a found link for the `null` marker. -/

/-- Python `str.strip()` — drop leading and trailing whitespace. -/
def stripChars (cs : List Char) : List Char :=
  ((cs.dropWhile Char.isWhitespace).reverse.dropWhile Char.isWhitespace).reverse

/-- Character scan behind `re.sub(r"v\d+", "", s)`: `inRun` records that the
scanner is inside a `v`-digits match whose digits are still being consumed. -/
def subVAux : Bool → List Char → List Char
  | _, [] => []
  | inRun, c :: rest =>
      if inRun ∧ c.isDigit then subVAux true rest
      else if c = 'v' ∧ rest.head?.elim false Char.isDigit then subVAux true rest
      else c :: subVAux false rest

/-- `re.sub(r"v\d+", "", s)`: delete every non-overlapping occurrence of
`'v'` followed by a maximal nonempty run of decimal digits, left to right. -/
def subVDigits (cs : List Char) : List Char := subVAux false cs

/-- Python `s.split("|")`. -/
def splitPipe : List Char → List (List Char)
  | [] => [[]]
  | c :: cs =>
      if c = '|' then [] :: splitPipe cs
      else
        match splitPipe cs with
        | [] => [[c]]
        | h :: t => (c :: h) :: t

/-- `parse_arxiv_string` (main.py lines 295-303): fields 1-5 of the
`|`-split, stripped, with `v`-digit runs deleted from the id field; `none`
models the `IndexError` raised when the record has fewer than six parts. -/
def parse_arxiv_string (s : List Char) :
    Option (List Char × List Char × List Char × List Char × List Char) :=
  match (splitPipe s)[1]?, (splitPipe s)[2]?, (splitPipe s)[3]?,
      (splitPipe s)[4]?, (splitPipe s)[5]? with
  | some p1, some p2, some p3, some p4, some p5 =>
      some (stripChars p1, stripChars p2, subVDigits (stripChars p3),
        stripChars p4, stripChars p5)
  | _, _, _, _, _ => none

/-- The re-serialized record `"|{}|{}|{}|{}|{}|\n"` (main.py lines 327-329). -/
def mkRow (d t a c b : List Char) : List Char :=
  '|' :: d ++ '|' :: t ++ '|' :: a ++ '|' :: c ++ '|' :: b ++ ['|', '\n']

/-- Scanner behind Python `str.replace`, structured by a fuel bound that the
wrapper instantiates with the input length (an upper bound on the number of
scan steps, each of which consumes at least one input character). -/
def replaceAllFuel (pat rep : List Char) : Nat → List Char → List Char
  | _, [] => []
  | 0, s => s
  | fuel + 1, c :: cs =>
      if pat ≠ [] ∧ pat.isPrefixOf (c :: cs) then
        rep ++ replaceAllFuel pat rep fuel (cs.drop (pat.length - 1))
      else c :: replaceAllFuel pat rep fuel cs

/-- Python `str.replace(pat, rep)`: replace all non-overlapping occurrences,
scanning left to right. -/
def replaceAll (pat rep s : List Char) : List Char := replaceAllFuel pat rep s.length s

/-- The `"|null|" in contents` membership test (main.py line 333). -/
def hasNullMarker (s : List Char) : Bool := decide ("|null|".data <:+: s)

/-- Exceptions that can escape store handling uncaught. -/
inductive PyErr where
  | indexError
  | fileNotFound
  | jsonDecodeError
  deriving Repr, DecidableEq

/-- Per-record body of the repair loop (main.py lines 316-350). The record
is re-parsed (a short record raises IndexError out of the pass) and
re-serialized in place; when the re-serialized string still contains
`"|null|"` the registry is probed once inside a `try`: a raised error or a
missing official entry leaves the re-serialized record, a found link is
substituted for every `"|null|"` occurrence. -/
def repairRecord (registry : Registry) (paperId : String) (contents : String) :
    Except PyErr String :=
  match parse_arxiv_string contents.data with
  | none => .error .indexError
  | some (d, t, aid, code, ab) =>
      let contents2 := mkRow d t aid code ab
      if hasNullMarker contents2 = false then .ok ⟨contents2⟩
      else
        match registry paperId with
        | .error _ => .ok ⟨contents2⟩
        | .ok none => .ok ⟨contents2⟩
        | .ok (some repo) =>
            .ok ⟨replaceAll "|null|".data ("|**[link](" ++ repo ++ ")**|").data contents2⟩

/-- The whole repair pass over the loaded store (main.py lines 312-351):
topics in order, records in order, each record replaced in place; any
record-level IndexError aborts the pass before the file is rewritten. -/
def update_paper_links_data (registry : Registry) (m : Store) : Except PyErr Store :=
  m.mapM (fun kv =>
    (kv.2.mapM (fun pv =>
      (repairRecord registry pv.1 pv.2).map (fun r => (pv.1, r)))).map
        (fun b => (kv.1, b)))

/-! ## Store loading (main.py lines 360-365, 418-423, 305-310)

`update_json_file`, `update_paper_links` and `json_to_md` all read the
store file with a bare `open(filename)`, treat only a zero-byte file as the
empty store, and call `json.loads(content)` otherwise; no exception handler
exists on this path anywhere up to `__main__`. The file is an
`Option String` (`none` when `open` raises: file absent or unreadable);
`jsonLoadsStore` models `json.loads` restricted to the store's shape (a
JSON object of objects of strings), `none` modelling a raised ValueError. -/

/-- JSON insignificant whitespace. -/
def jsonWs (c : Char) : Bool := c = ' ' ∨ c = '\n' ∨ c = '\t' ∨ c = '\r'

/-- Backslash escapes accepted inside a JSON string literal. -/
def jsonUnescape (c : Char) : Option Char :=
  if c = '"' then some '"'
  else if c = '\\' then some '\\'
  else if c = '/' then some '/'
  else if c = 'n' then some '\n'
  else if c = 't' then some '\t'
  else if c = 'r' then some '\r'
  else none

/-- Parse the remainder of a JSON string literal (after the opening quote),
returning the decoded characters and the input after the closing quote. -/
def parseJString : Nat → List Char → Option (List Char × List Char)
  | 0, _ => none
  | _, [] => none
  | fuel + 1, c :: cs =>
      if c = '"' then some ([], cs)
      else if c = '\\' then
        match cs with
        | [] => none
        | e :: cs2 =>
            match jsonUnescape e with
            | none => none
            | some u =>
                match parseJString fuel cs2 with
                | none => none
                | some (str, rest) => some (u :: str, rest)
      else
        match parseJString fuel cs with
        | none => none
        | some (str, rest) => some (c :: str, rest)

/-- Parse one or more `"key": "value"` pairs followed by `}`. -/
def parsePairsB : Nat → List Char → Option (Bucket × List Char)
  | 0, _ => none
  | fuel + 1, cs =>
      match cs.dropWhile jsonWs with
      | '"' :: cs1 =>
          match parseJString cs1.length cs1 with
          | none => none
          | some (key, cs2) =>
              match cs2.dropWhile jsonWs with
              | ':' :: cs3 =>
                  match cs3.dropWhile jsonWs with
                  | '"' :: cs4 =>
                      match parseJString cs4.length cs4 with
                      | none => none
                      | some (val, cs5) =>
                          match cs5.dropWhile jsonWs with
                          | ',' :: cs6 =>
                              match parsePairsB fuel cs6 with
                              | none => none
                              | some (b, rest) => some ((⟨key⟩, ⟨val⟩) :: b, rest)
                          | '}' :: cs6 => some ([(⟨key⟩, ⟨val⟩)], cs6)
                          | _ => none
                  | _ => none
              | _ => none
      | _ => none

/-- Parse a bucket object body (after its `{`). -/
def parseBucket (cs : List Char) : Option (Bucket × List Char) :=
  match cs.dropWhile jsonWs with
  | '}' :: rest => some ([], rest)
  | _ => parsePairsB cs.length cs

/-- Parse one or more `"topic": { … }` pairs followed by `}`. -/
def parsePairsS : Nat → List Char → Option (Store × List Char)
  | 0, _ => none
  | fuel + 1, cs =>
      match cs.dropWhile jsonWs with
      | '"' :: cs1 =>
          match parseJString cs1.length cs1 with
          | none => none
          | some (key, cs2) =>
              match cs2.dropWhile jsonWs with
              | ':' :: cs3 =>
                  match cs3.dropWhile jsonWs with
                  | '{' :: cs4 =>
                      match parseBucket cs4 with
                      | none => none
                      | some (b, cs5) =>
                          match cs5.dropWhile jsonWs with
                          | ',' :: cs6 =>
                              match parsePairsS fuel cs6 with
                              | none => none
                              | some (st, rest) => some ((⟨key⟩, b) :: st, rest)
                          | '}' :: cs6 => some ([(⟨key⟩, b)], cs6)
                          | _ => none
                  | _ => none
              | _ => none
      | _ => none

/-- `json.loads` restricted to the store shape. -/
def jsonLoadsStore (content : String) : Option Store :=
  match content.data.dropWhile jsonWs with
  | '{' :: cs1 =>
      match
        (match cs1.dropWhile jsonWs with
         | '}' :: rest => some (([] : Store), rest)
         | _ => parsePairsS cs1.length cs1) with
      | some (st, rest) => if rest.dropWhile jsonWs = [] then some st else none
      | none => none
  | _ => none

/-- The store-file read shared by `update_json_file` (lines 360-365),
`update_paper_links` (305-310) and `json_to_md` (418-423): a missing or
unreadable file makes `open` raise, a zero-byte file gives the empty store,
and anything else goes to `json.loads`, whose ValueError is uncaught. -/
def loadStore (file : Option String) : Except PyErr Store :=
  match file with
  | none => .error .fileNotFound
  | some content =>
      if content = "" then .ok []
      else
        match jsonLoadsStore content with
        | some m => .ok m
        | none => .error .jsonDecodeError

/-- `update_json_file` end to end on file contents: load (no handler),
merge, dump. -/
def update_json_file (file : Option String) (data_dict : List Store) :
    Except PyErr String :=
  (loadStore file).map (fun m => json_dump_store (update_json_data m data_dict))

/-! ## The harvest loop of demo (main.py lines 509-519)

`demo` iterates the configured topics, calling `get_daily_papers` for each
and appending the returned per-topic dict to `data_collector`. The upstream
search (iterating `search_engine.results()` at line 186 is outside the
per-paper `try`) is modelled as an oracle from (topic, keyword) to either
the topic's data or a raised error; `demo` wraps the call in no handler. -/

/-- The collector loop: stops at the first raised harvest error. -/
def demo_collect (harvest : String × String → Except String Store) :
    List (String × String) → List Store → Except String (List Store)
  | [], acc => .ok acc
  | tk :: rest, acc =>
      match harvest tk with
      | .error e => .error e
      | .ok d => demo_collect harvest rest (acc ++ [d])

/-- The harvest phase of `demo` over the configured keywords. -/
def demo_harvest (harvest : String × String → Except String Store)
    (keywords : List (String × String)) : Except String (List Store) :=
  demo_collect harvest keywords []

/-! ## pretty_math (main.py lines 398-412)

`re.search(r"\$.*\$", s)`: the regex engine returns the leftmost match,
with a greedy `.*` that may not cross a newline; so the match starts at the
first `'$'` that is followed by another `'$'` on the same line, and extends
to the last such `'$'`. `s[:math_start][-1]` and `s[math_end:][0]` index a
slice without a bounds check and raise IndexError on an empty slice. -/

/-- Index (within `cs`) of the last `'$'` reachable from the start of `cs`
without crossing a newline. -/
def lastDollarIdx (cs : List Char) : Option Nat :=
  let seg := cs.takeWhile (fun c => c ≠ '\n')
  (seg.reverse.findIdx? (fun c => c = '$')).map (fun r => seg.length - 1 - r)

/-- Scan for the leftmost-then-greedy span of `\$.*\$` (0-based, end
exclusive), accumulating the absolute position `i`. -/
def findDollarAux : List Char → Nat → Option (Nat × Nat)
  | [], _ => none
  | c :: cs, i =>
      if c = '$' then
        match lastDollarIdx cs with
        | some j => some (i, i + j + 2)
        | none => findDollarAux cs (i + 1)
      else findDollarAux cs (i + 1)

/-- `re.search(r"\$.*\$", s).span()`, or `none` when there is no match. -/
def findDollarMatch (s : List Char) : Option (Nat × Nat) := findDollarAux s 0

/-- `pretty_math` (main.py lines 398-412): `none` models a raised
IndexError from `s[:math_start][-1]` or `s[math_end:][0]`. -/
def pretty_math (s : String) : Option String :=
  match findDollarMatch s.data with
  | none => some s
  | some (a, b) => do
      let pre := s.data.take a
      let suf := s.data.drop b
      let c1 ← pre.getLast?
      let spaceTrail : List Char := if c1 ≠ ' ' ∧ c1 ≠ '*' then [' '] else []
      let c2 ← suf.head?
      let spaceLead : List Char := if c2 ≠ ' ' ∧ c2 ≠ '*' then [' '] else []
      let grp := (s.data.drop a).take (b - a)
      let inner := stripChars ((grp.drop 1).dropLast)
      some ⟨pre ++ spaceTrail ++ '$' :: inner ++ '$' :: spaceLead ++ suf⟩

/-! ## sort_papers and the per-topic rendering order (main.py 140-146, 477-482)

`keys.sort(reverse=True)` sorts the bucket's keys — the canonical paper ids
— in descending order under Python's code-point string comparison, and the
renderer emits the records in that key order, each through `pretty_math`. -/

/-- Code-point lexicographic `≤` on character lists (Python string `<=`). -/
def charsLe : List Char → List Char → Bool
  | [], _ => true
  | _ :: _, [] => false
  | a :: as, b :: bs =>
      if a.toNat < b.toNat then true
      else if b.toNat < a.toNat then false
      else charsLe as bs

/-- Descending comparison on keys: `a` may precede `b` after
`sort(reverse=True)`. -/
def keyGe (a b : String) : Bool := charsLe b.data a.data

/-- Insertion into a descending-sorted key list. -/
def insertDesc (k : String) : List String → List String
  | [] => [k]
  | x :: xs => if keyGe k x then k :: x :: xs else x :: insertDesc k xs

/-- Descending sort of the key list (`keys.sort(reverse=True)`); any
correct sort agrees with Python's on duplicate-free key lists. -/
def sortDesc : List String → List String
  | [] => []
  | k :: ks => insertDesc k (sortDesc ks)

/-- `sort_papers` (main.py lines 140-146): rebuild the dict following the
descending-sorted key list. -/
def sort_papers (papers : Bucket) : Bucket :=
  (sortDesc (dkeys papers)).filterMap
    (fun k => (alookup papers k).map (fun v => (k, v)))

/-- The sequence of rows one topic section writes (main.py lines 477-482):
records in `sort_papers` order, each through `pretty_math` (values are
always strings, so the `is not None` guard always holds); `none` models a
`pretty_math` IndexError aborting the rendering. -/
def render_rows (day_content : Bucket) : Option (List String) :=
  (sort_papers day_content).mapM (fun kv => pretty_math kv.2)

/-- The raw `update_date` field of a serialized record. -/
def row_update_date (row : String) : Option String :=
  ((splitPipe row.data)[1]?).map (fun p => ⟨p⟩)

/-! ## Theorems -/

/-! Basic facts about the dict model, used throughout. -/

@[simp] theorem dkeys_nil {V : Type} : dkeys ([] : PyDict V) = [] := rfl

@[simp] theorem dkeys_cons {V : Type} (k : String) (v : V) (t : PyDict V) :
    dkeys ((k, v) :: t) = k :: dkeys t := rfl

@[simp] theorem alookup_nil {V : Type} (a : String) : alookup ([] : PyDict V) a = none := rfl

theorem alookup_cons {V : Type} (k a : String) (v : V) (t : PyDict V) :
    alookup ((k, v) :: t) a = if a = k then some v else alookup t a := rfl

theorem upsertWith_cons {V : Type} (f : V → V → V) (k0 k : String) (v0 v : V) (t : PyDict V) :
    upsertWith f ((k0, v0) :: t) k v =
      if k0 = k then (k0, f v0 v) :: t else (k0, v0) :: upsertWith f t k v := rfl

theorem alookup_upsertWith {V : Type} (f : V → V → V) (m : PyDict V) (k a : String) (v : V) :
    alookup (upsertWith f m k v) a =
      if a = k then some ((alookup m k).elim v (fun w => f w v)) else alookup m a := by
  induction m with
  | nil =>
      by_cases h : a = k <;> simp [upsertWith, alookup_cons, h]
  | cons hd t ih =>
      obtain ⟨k0, v0⟩ := hd
      by_cases hk : k0 = k
      · subst hk
        by_cases ha : a = k0 <;>
          simp [upsertWith_cons, alookup_cons, ha]
      · have hk' : k ≠ k0 := fun hE => hk hE.symm
        by_cases ha : a = k0
        · have hak : a ≠ k := fun hE => hk' (hE ▸ ha)
          simp [upsertWith_cons, hk, alookup_cons, ha, hak]
        · simp [upsertWith_cons, hk, alookup_cons, ha, ih, hk']

theorem mem_dkeys_upsertWith {V : Type} (f : V → V → V) (m : PyDict V) (k a : String) (v : V) :
    a ∈ dkeys (upsertWith f m k v) ↔ a = k ∨ a ∈ dkeys m := by
  induction m with
  | nil => simp [upsertWith]
  | cons hd t ih =>
      obtain ⟨k0, v0⟩ := hd
      by_cases hk : k0 = k
      · subst hk
        rw [upsertWith_cons, if_pos rfl]
        simp only [dkeys_cons, List.mem_cons]
        tauto
      · rw [upsertWith_cons, if_neg hk]
        simp only [dkeys_cons, List.mem_cons, ih]
        tauto

theorem dkeys_upsertWith_of_mem {V : Type} (f : V → V → V) (m : PyDict V) (k : String) (v : V)
    (h : k ∈ dkeys m) : dkeys (upsertWith f m k v) = dkeys m := by
  induction m with
  | nil => simp at h
  | cons hd t ih =>
      obtain ⟨k0, v0⟩ := hd
      by_cases hk : k0 = k
      · subst hk
        simp [upsertWith_cons]
      · simp only [dkeys_cons, List.mem_cons] at h
        rcases h with h | h
        · exact absurd h.symm hk
        · simp [upsertWith_cons, hk, ih h]

theorem dkeys_upsertWith_of_not_mem {V : Type} (f : V → V → V) (m : PyDict V) (k : String)
    (v : V) (h : k ∉ dkeys m) : dkeys (upsertWith f m k v) = dkeys m ++ [k] := by
  induction m with
  | nil => simp [upsertWith]
  | cons hd t ih =>
      obtain ⟨k0, v0⟩ := hd
      simp only [dkeys_cons, List.mem_cons] at h
      push_neg at h
      have hk : k0 ≠ k := fun hE => h.1 hE.symm
      simp [upsertWith_cons, hk, ih h.2]

theorem dkeys_nodup_upsertWith {V : Type} (f : V → V → V) (m : PyDict V) (k : String) (v : V)
    (h : (dkeys m).Nodup) : (dkeys (upsertWith f m k v)).Nodup := by
  by_cases hk : k ∈ dkeys m
  · rw [dkeys_upsertWith_of_mem f m k v hk]; exact h
  · rw [dkeys_upsertWith_of_not_mem f m k v hk]
    refine List.Nodup.append h (List.nodup_singleton k) ?_
    intro a ha hmem
    rw [List.mem_singleton] at hmem
    exact hk (hmem ▸ ha)

theorem alookup_eq_none_of_not_mem {V : Type} (m : PyDict V) (a : String)
    (h : a ∉ dkeys m) : alookup m a = none := by
  induction m with
  | nil => rfl
  | cons hd t ih =>
      obtain ⟨k0, v0⟩ := hd
      simp only [dkeys_cons, List.mem_cons] at h
      push_neg at h
      simp [alookup_cons, h.1, ih h.2]

theorem mem_of_alookup_eq_some {V : Type} (m : PyDict V) (a : String) (v : V)
    (h : alookup m a = some v) : (a, v) ∈ m := by
  induction m with
  | nil => simp [alookup] at h
  | cons hd t ih =>
      obtain ⟨k0, v0⟩ := hd
      rw [alookup_cons] at h
      by_cases ha : a = k0
      · rw [if_pos ha] at h
        injection h with h2
        subst ha h2
        exact List.mem_cons_self ..
      · rw [if_neg ha] at h
        exact List.mem_cons_of_mem _ (ih h)

/-- Extensionality for the dict model: two dicts with the same key sequence
(without duplicates) and the same lookups are equal. -/
theorem pydict_ext {V : Type} (m1 m2 : PyDict V) (hnd : (dkeys m1).Nodup)
    (hk : dkeys m1 = dkeys m2) (hv : ∀ a, alookup m1 a = alookup m2 a) : m1 = m2 := by
  induction m1 generalizing m2 with
  | nil =>
      cases m2 with
      | nil => rfl
      | cons hd t => simp [dkeys] at hk
  | cons hd t ih =>
      obtain ⟨k0, v0⟩ := hd
      cases m2 with
      | nil => simp [dkeys] at hk
      | cons hd2 t2 =>
          obtain ⟨k2, v2⟩ := hd2
          simp only [dkeys_cons, List.cons.injEq] at hk
          obtain ⟨hkk, hkt⟩ := hk
          subst hkk
          simp only [List.nodup_cons, dkeys_cons] at hnd
          have hval : v0 = v2 := by
            have := hv k0
            simp [alookup_cons] at this
            exact this
          subst hval
          have htail : t = t2 := by
            refine ih t2 hnd.2 hkt ?_
            intro a
            by_cases ha : a = k0
            · subst ha
              rw [alookup_eq_none_of_not_mem t a hnd.1,
                alookup_eq_none_of_not_mem t2 a (hkt ▸ hnd.1)]
            · have := hv a
              simpa [alookup_cons, ha] using this
          rw [htail]

@[simp] theorem runUpserts_nil {V : Type} (f : V → V → V) (m : PyDict V) :
    runUpserts f m [] = m := rfl

theorem runUpserts_cons {V : Type} (f : V → V → V) (m : PyDict V) (k : String) (v : V)
    (t : PyDict V) : runUpserts f m ((k, v) :: t) = runUpserts f (upsertWith f m k v) t := rfl

theorem runUpserts_append {V : Type} (f : V → V → V) (m : PyDict V) (p q : PyDict V) :
    runUpserts f m (p ++ q) = runUpserts f (runUpserts f m p) q :=
  List.foldl_append ..

@[simp] theorem accV_nil {V : Type} (f : V → V → V) (o : Option V) : accV f o [] = o := rfl

theorem accV_cons {V : Type} (f : V → V → V) (o : Option V) (v : V) (vs : List V) :
    accV f o (v :: vs) = accV f (some (o.elim v (fun w => f w v))) vs := rfl

@[simp] theorem valsAt_nil {V : Type} (a : String) : valsAt ([] : PyDict V) a = [] := rfl

theorem valsAt_cons {V : Type} (k : String) (v : V) (t : PyDict V) (a : String) :
    valsAt ((k, v) :: t) a = if k = a then v :: valsAt t a else valsAt t a := by
  by_cases h : k = a <;> simp [valsAt, h]

theorem valsAt_append {V : Type} (p q : PyDict V) (a : String) :
    valsAt (p ++ q) a = valsAt p a ++ valsAt q a :=
  List.filterMap_append ..

theorem mem_of_mem_valsAt {V : Type} (ps : PyDict V) (a : String) (v : V)
    (h : v ∈ valsAt ps a) : (a, v) ∈ ps := by
  induction ps with
  | nil => simp [valsAt] at h
  | cons hd t ih =>
      obtain ⟨k0, v0⟩ := hd
      rw [valsAt_cons] at h
      by_cases hk : k0 = a
      · rw [if_pos hk] at h
        rcases List.mem_cons.mp h with h | h
        · subst h hk; exact List.mem_cons_self ..
        · exact List.mem_cons_of_mem _ (ih h)
      · rw [if_neg hk] at h
        exact List.mem_cons_of_mem _ (ih h)

theorem alookup_runUpserts {V : Type} (f : V → V → V) (m : PyDict V) (ps : PyDict V)
    (a : String) : alookup (runUpserts f m ps) a = accV f (alookup m a) (valsAt ps a) := by
  induction ps generalizing m with
  | nil => simp
  | cons hd t ih =>
      obtain ⟨k0, v0⟩ := hd
      rw [runUpserts_cons, ih, valsAt_cons]
      by_cases h : k0 = a
      · rw [if_pos h, accV_cons, alookup_upsertWith, if_pos h.symm, h]
      · rw [if_neg h, alookup_upsertWith, if_neg (fun hE => h hE.symm)]

theorem mem_dkeys_runUpserts {V : Type} (f : V → V → V) (m : PyDict V) (ps : PyDict V)
    (a : String) : a ∈ dkeys (runUpserts f m ps) ↔ a ∈ dkeys ps ∨ a ∈ dkeys m := by
  induction ps generalizing m with
  | nil => simp
  | cons hd t ih =>
      obtain ⟨k0, v0⟩ := hd
      rw [runUpserts_cons, ih]
      simp only [dkeys_cons, List.mem_cons, mem_dkeys_upsertWith]
      tauto

theorem dkeys_runUpserts_of_subset {V : Type} (f : V → V → V) (m : PyDict V) (ps : PyDict V)
    (h : ∀ a ∈ dkeys ps, a ∈ dkeys m) : dkeys (runUpserts f m ps) = dkeys m := by
  induction ps generalizing m with
  | nil => simp
  | cons hd t ih =>
      obtain ⟨k0, v0⟩ := hd
      rw [runUpserts_cons]
      have hk0 : k0 ∈ dkeys m := h k0 (by simp)
      have heq : dkeys (upsertWith f m k0 v0) = dkeys m := dkeys_upsertWith_of_mem f m k0 v0 hk0
      rw [ih (upsertWith f m k0 v0) (fun a ha => heq ▸ h a (by simp [ha])), heq]

theorem dkeys_nodup_runUpserts {V : Type} (f : V → V → V) (m : PyDict V) (ps : PyDict V)
    (h : (dkeys m).Nodup) : (dkeys (runUpserts f m ps)).Nodup := by
  induction ps generalizing m with
  | nil => simpa
  | cons hd t ih =>
      obtain ⟨k0, v0⟩ := hd
      rw [runUpserts_cons]
      exact ih _ (dkeys_nodup_upsertWith f m k0 v0 h)

theorem dkeys_append {V : Type} (p q : PyDict V) : dkeys (p ++ q) = dkeys p ++ dkeys q :=
  List.map_append ..

theorem valsAt_eq_nil_of_not_mem {V : Type} (b : PyDict V) (a : String)
    (h : a ∉ dkeys b) : valsAt b a = [] := by
  induction b with
  | nil => rfl
  | cons hd t ih =>
      obtain ⟨k0, v0⟩ := hd
      simp only [dkeys_cons, List.mem_cons] at h
      push_neg at h
      rw [valsAt_cons, if_neg (fun hE => h.1 hE.symm)]
      exact ih h.2

theorem valsAt_of_nodup {V : Type} (b : PyDict V) (a : String) (h : (dkeys b).Nodup) :
    valsAt b a = (alookup b a).elim [] (fun v => [v]) := by
  induction b with
  | nil => rfl
  | cons hd t ih =>
      obtain ⟨k0, v0⟩ := hd
      simp only [dkeys_cons, List.nodup_cons] at h
      rw [valsAt_cons, alookup_cons]
      by_cases hk : k0 = a
      · rw [if_pos hk, if_pos hk.symm]
        rw [valsAt_eq_nil_of_not_mem t a (hk ▸ h.1)]
        rfl
      · rw [if_neg hk, if_neg (fun hE => hk hE.symm)]
        exact ih h.2

/-! Plain assignment (`combine old v = v`): the behaviour of
`dict.update` / repeated `d[k] = v` writes. -/

theorem dassign_eq_upsertWith {V : Type} (m : PyDict V) (k : String) (v : V) :
    dassign m k v = upsertWith (fun _ v => v) m k v := rfl

theorem dupdate_eq_runUpserts {V : Type} (m p : PyDict V) :
    dupdate m p = runUpserts (fun _ v => v) m p := rfl

theorem accV_overwrite_ne_nil {V : Type} (o : Option V) (vs : List V) (h : vs ≠ []) :
    accV (fun _ v => v) o vs = vs.getLast? := by
  induction vs generalizing o with
  | nil => cases h rfl
  | cons v t ih =>
      rw [accV_cons]
      cases t with
      | nil =>
          cases o <;> rfl
      | cons w t' =>
          rw [ih _ (by simp), List.getLast?_cons_cons]

theorem runUpserts_overwrite_idem {V : Type} (b p : PyDict V) (h : (dkeys b).Nodup) :
    runUpserts (fun _ v => v) (runUpserts (fun _ v => v) b p) p
      = runUpserts (fun _ v => v) b p := by
  refine pydict_ext _ _
    (dkeys_nodup_runUpserts _ _ _ (dkeys_nodup_runUpserts _ _ _ h)) ?_ ?_
  · refine dkeys_runUpserts_of_subset _ _ _ ?_
    intro a ha
    exact (mem_dkeys_runUpserts _ _ _ _).2 (Or.inl ha)
  · intro a
    simp only [alookup_runUpserts]
    rcases List.eq_nil_or_concat (valsAt p a) with hnil | ⟨_, _, hne⟩
    · rw [hnil]; rfl
    · have hne' : valsAt p a ≠ [] := by rw [hne]; simp
      rw [accV_overwrite_ne_nil _ _ hne', accV_overwrite_ne_nil _ _ hne']

theorem runUpserts_overwrite_absorb_self {V : Type} (b q : PyDict V) (h : (dkeys b).Nodup) :
    runUpserts (fun _ v => v) (runUpserts (fun _ v => v) b q) (b ++ q)
      = runUpserts (fun _ v => v) b q := by
  refine pydict_ext _ _
    (dkeys_nodup_runUpserts _ _ _ (dkeys_nodup_runUpserts _ _ _ h)) ?_ ?_
  · refine dkeys_runUpserts_of_subset _ _ _ ?_
    intro a ha
    rw [dkeys_append] at ha
    rcases List.mem_append.mp ha with ha | ha
    · exact (mem_dkeys_runUpserts _ _ _ _).2 (Or.inr ha)
    · exact (mem_dkeys_runUpserts _ _ _ _).2 (Or.inl ha)
  · intro a
    simp only [alookup_runUpserts, valsAt_append]
    by_cases hq : valsAt q a = []
    · rw [hq, List.append_nil, accV_nil, valsAt_of_nodup b a h]
      cases alookup b a <;> rfl
    · rw [accV_overwrite_ne_nil _ _ hq, accV_overwrite_ne_nil _ _ (by
        intro hE
        exact hq (List.append_eq_nil.mp hE).2)]
      rw [List.getLast?_append]
      obtain ⟨x, hx⟩ := Option.ne_none_iff_exists'.mp
        (fun hE => hq (List.getLast?_eq_none_iff.mp hE))
      rw [hx]
      rfl

/-! Store-level merge values: an existing bucket is extended with
`dict.update`, a fresh topic keeps the incoming bucket. -/

theorem accV_dupdate_some {V : Type} (w : PyDict V) (vs : List (PyDict V)) :
    accV dupdate (some w) vs = some (vs.foldl dupdate w) := by
  induction vs generalizing w with
  | nil => rfl
  | cons v t ih => rw [accV_cons]; exact ih (dupdate w v)

theorem foldl_dupdate_eq_run_flatten {V : Type} (w : PyDict V) (vs : List (PyDict V)) :
    vs.foldl dupdate w = runUpserts (fun _ v => v) w vs.flatten := by
  induction vs generalizing w with
  | nil => rfl
  | cons v t ih =>
      rw [List.foldl_cons, ih (dupdate w v), List.flatten_cons, runUpserts_append,
        dupdate_eq_runUpserts]

theorem accV_dupdate_absorb {V : Type} (o : Option (PyDict V)) (vs : List (PyDict V))
    (ho : ∀ w, o = some w → (dkeys w).Nodup) (hv : ∀ v ∈ vs, (dkeys v).Nodup) :
    accV dupdate (accV dupdate o vs) vs = accV dupdate o vs := by
  cases vs with
  | nil => rfl
  | cons v t =>
      cases o with
      | some w =>
          rw [accV_dupdate_some, accV_dupdate_some,
            foldl_dupdate_eq_run_flatten, foldl_dupdate_eq_run_flatten]
          exact congrArg some (runUpserts_overwrite_idem w (v :: t).flatten (ho w rfl))
      | none =>
          have h1 : accV dupdate (none : Option (PyDict V)) (v :: t)
              = some (t.foldl dupdate v) := by
            rw [accV_cons]; exact accV_dupdate_some v t
          rw [h1, accV_dupdate_some, foldl_dupdate_eq_run_flatten,
            foldl_dupdate_eq_run_flatten, List.flatten_cons]
          exact congrArg some
            (runUpserts_overwrite_absorb_self v t.flatten (hv v (List.mem_cons_self ..)))

theorem update_json_data_eq_run (m : Store) (dd : List Store) :
    update_json_data m dd = runUpserts dupdate m dd.flatten := by
  induction dd generalizing m with
  | nil => rfl
  | cons d t ih =>
      show update_json_data (runUpserts dupdate m d) t = _
      rw [ih, List.flatten_cons, runUpserts_append]

/-- C7: harvest-merge is idempotent. For every existing store and every
batch of enriched per-topic records (all genuine Python dicts, so key
sequences have no duplicates), merging the batch a second time leaves the
store exactly as it was after the first merge, and hence the serialized
store file is byte-for-byte identical after the second run. -/
theorem C7_harvest_merge_idempotent (m : Store) (dd : List Store)
    (hm : (dkeys m).Nodup)
    (hmv : ∀ kv ∈ m, (dkeys kv.2).Nodup)
    (hdv : ∀ d ∈ dd, ∀ kv ∈ d, (dkeys kv.2).Nodup) :
    update_json_data (update_json_data m dd) dd = update_json_data m dd ∧
      json_dump_store (update_json_data (update_json_data m dd) dd)
        = json_dump_store (update_json_data m dd) := by
  have heq : update_json_data (update_json_data m dd) dd = update_json_data m dd := by
    simp only [update_json_data_eq_run]
    refine pydict_ext _ _
      (dkeys_nodup_runUpserts _ _ _ (dkeys_nodup_runUpserts _ _ _ hm)) ?_ ?_
    · refine dkeys_runUpserts_of_subset _ _ _ ?_
      intro a ha
      exact (mem_dkeys_runUpserts _ _ _ _).2 (Or.inl ha)
    · intro a
      simp only [alookup_runUpserts]
      refine accV_dupdate_absorb _ _ ?_ ?_
      · intro w hw
        exact hmv (a, w) (mem_of_alookup_eq_some m a w hw)
      · intro v hvmem
        obtain ⟨d, hd, hvd⟩ := List.mem_flatten.mp (mem_of_mem_valsAt _ _ _ hvmem)
        exact hdv d hd (a, v) hvd
  exact ⟨heq, congrArg json_dump_store heq⟩

/-- Witness for C7 at a concrete store and batch. -/
theorem C7_harvest_merge_idempotent_witness :
    update_json_data
        (update_json_data [("nerf", [("2401.00001", "|**r**|\n")])]
          [[("nerf", [("2401.00002", "|**s**|\n")]), ("slam", [("2401.00003", "|**t**|\n")])]])
        [[("nerf", [("2401.00002", "|**s**|\n")]), ("slam", [("2401.00003", "|**t**|\n")])]]
      = update_json_data [("nerf", [("2401.00001", "|**r**|\n")])]
          [[("nerf", [("2401.00002", "|**s**|\n")]), ("slam", [("2401.00003", "|**t**|\n")])]] :=
  (C7_harvest_merge_idempotent _ _ (by decide) (by decide) (by decide)).1

/-- C8: with a translator call that fails on every attempt,
`Translater.translate` makes exactly 3 attempts, sleeps after each failure
with an interval that doubles each time (1 + 2 + 4 = 7 seconds in total,
which is at least base + 2*base = 3 for base 1), and returns the original
text verbatim; being a total function of its oracle, exhaustion never raises
to the caller, so the paper proceeds with its untranslated abstract. -/
theorem C8_translate_exhaustion (call : Nat → Option String) (text : String)
    (h : ∀ i, call i = none) :
    Translater.translate call text = ⟨text, 3, 7⟩ ∧ 7 ≥ 1 + 2 * 1 := by
  constructor
  · show translateLoop call text 3 0 1 0 = _
    rw [translateLoop, h 0, translateLoop, h 1, translateLoop, h 2]
    rfl
  · norm_num

/-- Witness for C8 at an always-failing translator stub. -/
theorem C8_translate_exhaustion_witness :
    Translater.translate (fun _ => none) "the original abstract"
      = ⟨"the original abstract", 3, 7⟩ :=
  (C8_translate_exhaustion (fun _ => none) "the original abstract" (fun _ => rfl)).1

/-! Facts about `findIdx?` used for identity normalization. -/

theorem findIdx_v_eq_none (cs : List Char) (h : 'v' ∉ cs) (i : Nat) :
    cs.findIdx? (fun c => c = 'v') i = none := by
  induction cs generalizing i with
  | nil => rfl
  | cons c t ih =>
      simp only [List.mem_cons] at h
      push_neg at h
      rw [List.findIdx?_cons]
      simp [Ne.symm h.1, ih h.2]

theorem findIdx_v_append (cs rest : List Char) (h : 'v' ∉ cs) (i : Nat) :
    (cs ++ 'v' :: rest).findIdx? (fun c => c = 'v') i = some (i + cs.length) := by
  induction cs generalizing i with
  | nil => simp [List.findIdx?_cons]
  | cons c t ih =>
      simp only [List.mem_cons] at h
      push_neg at h
      rw [List.cons_append, List.findIdx?_cons]
      have hc : ¬ c = 'v' := Ne.symm h.1
      simp only [hc, decide_eq_true_eq, if_false, decide_eq_false, ih h.2 (i + 1)]
      congr 1
      simp [List.length_cons]
      omega

/-- C9 counterexample: the claim says an id with no version marker
normalizes to itself, but normalization truncates at the first `'v'`
anywhere in the id: the unversioned old-style id "solv-int/9701001" has no
trailing `vN` suffix yet normalizes to "sol". -/
theorem C9_counterexample :
    hasVersionSuffix "solv-int/9701001" = false ∧
      paper_key "solv-int/9701001" = "sol" ∧
      paper_key "solv-int/9701001" ≠ "solv-int/9701001" := by
  refine ⟨by decide, by decide, by decide⟩

/-- C9 amended: normalization is pure and total and truncates the raw id at
its first `'v'`: the two example ids both normalize to "2108.09112"; an id
containing no `'v'` at all normalizes to itself; and for every id of the
shape base ++ "v" ++ rest whose base is `'v'`-free — which covers every
modern-format versioned arXiv id — the key is exactly base, so two harvests
of the same paper at different versions produce the same key and collapse
to one record. -/
theorem C9_amended (base rest1 rest2 : String) (hb : 'v' ∉ base.data) :
    paper_key "2108.09112v2" = "2108.09112" ∧
    paper_key "2108.09112v1" = "2108.09112" ∧
    (∀ s : String, 'v' ∉ s.data → paper_key s = s) ∧
    paper_key (base ++ "v" ++ rest1) = base ∧
    paper_key (base ++ "v" ++ rest1) = paper_key (base ++ "v" ++ rest2) := by
  have hkey : ∀ rest : String, paper_key (base ++ "v" ++ rest) = base := by
    intro rest
    have hdata : (base ++ "v" ++ rest).data = base.data ++ 'v' :: rest.data := by
      rw [String.data_append, String.data_append]
      have hv : ("v" : String).data = ['v'] := rfl
      rw [hv, List.append_assoc]
      rfl
    unfold paper_key
    rw [hdata, findIdx_v_append base.data rest.data hb 0]
    simp only [Nat.zero_add]
    show String.mk ((base.data ++ 'v' :: rest.data).take base.data.length) = base
    rw [List.take_left]
  refine ⟨by decide, by decide, ?_, hkey rest1, (hkey rest1).trans (hkey rest2).symm⟩
  intro s hs
  unfold paper_key
  rw [findIdx_v_eq_none s.data hs 0]

/-- Witness for C9 amended at the two example ids. -/
theorem C9_amended_witness :
    paper_key ("2108.09112" ++ "v" ++ "2") = "2108.09112" ∧
      paper_key ("2108.09112" ++ "v" ++ "2") = paper_key ("2108.09112" ++ "v" ++ "1") :=
  ⟨(C9_amended "2108.09112" "2" "1" (by decide)).2.2.2.1,
   (C9_amended "2108.09112" "2" "1" (by decide)).2.2.2.2⟩

/-- C2 counterexample: with a registry lookup that raises, the harvested
paper is not "recorded without a code link" — it is omitted from the run's
records altogether (the claim requires a `null`-link record under the
paper's canonical key), and no retry happens (the model consults the oracle
once per paper by construction). -/
theorem C2_counterexample :
    get_daily_papers (fun _ => .error "connection error")
        [⟨"2401.12345v1", "A Paper", "An abstract", "2024-01-20"⟩] = [] ∧
      alookup
        (get_daily_papers (fun _ => .error "connection error")
          [⟨"2401.12345v1", "A Paper", "An abstract", "2024-01-20"⟩]) "2401.12345"
        = none := ⟨rfl, rfl⟩

/-- Folding the harvest loop over results whose registry lookups all raise
leaves the content dict untouched. -/
theorem get_daily_papers_all_errors (registry : Registry) (results : List RawPaper) :
    ∀ content : Bucket, (∀ p ∈ results, ∃ e, registry p.paper_id = .error e) →
      results.foldl (get_daily_papers_step registry) content = content := by
  induction results with
  | nil => intro content _; rfl
  | cons p t ih =>
      intro content hall
      obtain ⟨e, he⟩ := hall p (List.mem_cons_self ..)
      have hstep : get_daily_papers_step registry content p = content := by
        unfold get_daily_papers_step
        rw [he]
      rw [List.foldl_cons, hstep]
      exact ih content (fun q hq => hall q (List.mem_cons_of_mem _ hq))

/-- C2 amended: a code-link registry failure for a paper is caught and
logged, with no retry, and the paper is dropped from this run's records;
in particular when the lookup raises for every harvested paper the topic's
content dict comes back empty. -/
theorem C2_amended (registry : Registry) (results : List RawPaper)
    (h : ∀ p ∈ results, ∃ e, registry p.paper_id = .error e) :
    get_daily_papers registry results = [] :=
  get_daily_papers_all_errors registry results [] h

/-- Witness for C2 amended: an always-failing registry yields no records. -/
theorem C2_amended_witness :
    get_daily_papers (fun _ => .error "HTTPSConnectionPool timeout")
        [⟨"2401.12345v1", "A Paper", "An abstract", "2024-01-20"⟩,
         ⟨"2401.54321v2", "B Paper", "Another abstract", "2024-01-21"⟩] = [] :=
  C2_amended _ _ (fun p _ => ⟨"HTTPSConnectionPool timeout", rfl⟩)

set_option maxRecDepth 4000 in
/-- C1 counterexample: the harvest merge (`update_json_file`) stores whole
record strings with plain `dict.update`, so an incoming record whose code
link is the absent marker `null` replaces an existing record that carried a
present code link — the merged store loses the link. -/
theorem C1_counterexample :
    update_json_data
        [("nerf", [("2401.00001",
          officialRow ⟨"2401.00001v1", "T", "A", "2024-01-03"⟩ "2401.00001"
            "https://github.com/x/y")])]
        [[("nerf", [("2401.00001",
          nullRow ⟨"2401.00001v1", "T", "A", "2024-01-03"⟩ "2401.00001")])]]
      = [("nerf", [("2401.00001",
          nullRow ⟨"2401.00001v1", "T", "A", "2024-01-03"⟩ "2401.00001")])] ∧
      ("|null|".data <:+:
        (nullRow ⟨"2401.00001v1", "T", "A", "2024-01-03"⟩ "2401.00001").data) ∧
      ¬ ("|null|".data <:+:
        (officialRow ⟨"2401.00001v1", "T", "A", "2024-01-03"⟩ "2401.00001"
          "https://github.com/x/y").data) := by
  refine ⟨by decide, by decide, by decide⟩

/-! Facts about stripping, splitting and the `v`-digit deletion, needed to
re-parse a re-serialized record. -/

theorem head?_dropWhile_not (p : Char → Bool) (l : List Char) (c : Char)
    (h : (l.dropWhile p).head? = some c) : p c = false := by
  induction l with
  | nil => simp [List.dropWhile] at h
  | cons a t ih =>
      rw [List.dropWhile_cons] at h
      by_cases hp : p a
      · rw [if_pos hp] at h; exact ih h
      · rw [if_neg hp] at h
        simp only [List.head?_cons, Option.some.injEq] at h
        subst h
        exact Bool.eq_false_iff.mpr hp

theorem dropWhile_eq_self_of_head? (p : Char → Bool) (l : List Char)
    (h : ∀ c, l.head? = some c → p c = false) : l.dropWhile p = l := by
  cases l with
  | nil => rfl
  | cons a t => simp [List.dropWhile_cons, h a rfl]

theorem getLast?_dropWhile_of_ne_nil (p : Char → Bool) (l : List Char)
    (h : l.dropWhile p ≠ []) : (l.dropWhile p).getLast? = l.getLast? := by
  obtain ⟨pre, hpre⟩ := List.dropWhile_suffix (l := l) p
  obtain ⟨c, hc⟩ := Option.ne_none_iff_exists'.mp
    (fun hE => h (List.getLast?_eq_none_iff.mp hE))
  have h2 : l.getLast? = (pre ++ l.dropWhile p).getLast? := by rw [hpre]
  rw [h2, List.getLast?_append, hc]
  rfl

theorem head?_stripChars_not_ws (x : List Char) (c : Char)
    (h : (stripChars x).head? = some c) : c.isWhitespace = false := by
  unfold stripChars at h
  rw [List.head?_reverse] at h
  have hne : (List.dropWhile Char.isWhitespace
      (List.dropWhile Char.isWhitespace x).reverse) ≠ [] := by
    intro hE
    rw [hE] at h
    simp at h
  rw [getLast?_dropWhile_of_ne_nil _ _ hne, List.getLast?_reverse] at h
  exact head?_dropWhile_not _ _ _ h

theorem getLast?_stripChars_not_ws (x : List Char) (c : Char)
    (h : (stripChars x).getLast? = some c) : c.isWhitespace = false := by
  unfold stripChars at h
  rw [List.getLast?_reverse] at h
  exact head?_dropWhile_not _ _ _ h

theorem stripChars_idem (x : List Char) : stripChars (stripChars x) = stripChars x := by
  show (((stripChars x).dropWhile Char.isWhitespace).reverse.dropWhile
      Char.isWhitespace).reverse = stripChars x
  rw [dropWhile_eq_self_of_head? _ _ (fun c hc => head?_stripChars_not_ws x c hc)]
  rw [dropWhile_eq_self_of_head? _ _
    (fun c hc => getLast?_stripChars_not_ws x c (by rwa [List.head?_reverse] at hc))]
  exact List.reverse_reverse _

theorem mem_stripChars (x : List Char) (c : Char) (h : c ∈ stripChars x) : c ∈ x := by
  unfold stripChars at h
  rw [List.mem_reverse] at h
  have h1 := (List.dropWhile_sublist _).subset h
  rw [List.mem_reverse] at h1
  exact (List.dropWhile_sublist _).subset h1

theorem mem_subVAux (b : Bool) (cs : List Char) (c : Char) (h : c ∈ subVAux b cs) :
    c ∈ cs := by
  induction cs generalizing b with
  | nil => simp [subVAux] at h
  | cons a rest ih =>
      unfold subVAux at h
      by_cases h1 : b ∧ a.isDigit
      · rw [if_pos h1] at h
        exact List.mem_cons_of_mem _ (ih _ h)
      · rw [if_neg h1] at h
        by_cases h2 : a = 'v' ∧ rest.head?.elim false Char.isDigit
        · rw [if_pos h2] at h
          exact List.mem_cons_of_mem _ (ih _ h)
        · rw [if_neg h2] at h
          rcases List.mem_cons.mp h with h3 | h3
          · exact h3 ▸ List.mem_cons_self ..
          · exact List.mem_cons_of_mem _ (ih _ h3)

theorem mem_subVDigits (cs : List Char) (c : Char) (h : c ∈ subVDigits cs) : c ∈ cs :=
  mem_subVAux false cs c h

theorem splitPipe_ne_nil (s : List Char) : splitPipe s ≠ [] := by
  cases s with
  | nil => simp [splitPipe]
  | cons c cs =>
      unfold splitPipe
      by_cases h : c = '|'
      · simp [h]
      · rw [if_neg h]
        cases splitPipe cs <;> simp

theorem splitPipe_cons_pipe (cs : List Char) : splitPipe ('|' :: cs) = [] :: splitPipe cs := by
  simp [splitPipe]

theorem splitPipe_field (x r : List Char) (hx : '|' ∉ x) :
    splitPipe (x ++ '|' :: r) = x :: splitPipe r := by
  induction x with
  | nil => simpa using splitPipe_cons_pipe r
  | cons c x2 ih =>
      simp only [List.mem_cons] at hx
      push_neg at hx
      have hc : ¬ c = '|' := fun hE => hx.1 hE.symm
      rw [List.cons_append]
      simp only [splitPipe]
      rw [if_neg hc, ih hx.2]

theorem mem_splitPipe_no_pipe (s : List Char) : ∀ part ∈ splitPipe s, '|' ∉ part := by
  induction s with
  | nil =>
      intro part hp
      simp only [splitPipe, List.mem_singleton] at hp
      simp [hp]
  | cons c cs ih =>
      intro part hp
      unfold splitPipe at hp
      by_cases h : c = '|'
      · rw [if_pos h] at hp
        rcases List.mem_cons.mp hp with h1 | h1
        · simp [h1]
        · exact ih part h1
      · rw [if_neg h] at hp
        cases hsp : splitPipe cs with
        | nil => exact absurd hsp (splitPipe_ne_nil cs)
        | cons h0 t0 =>
            rw [hsp] at hp
            rcases List.mem_cons.mp hp with h1 | h1
            · subst h1
              intro hmem
              rcases List.mem_cons.mp hmem with h2 | h2
              · exact h h2.symm
              · exact ih h0 (hsp ▸ List.mem_cons_self ..) h2
            · exact ih part (hsp ▸ List.mem_cons_of_mem _ h1)

theorem splitPipe_mkRow (d t a c b : List Char) (hd : '|' ∉ d) (ht : '|' ∉ t)
    (ha : '|' ∉ a) (hc : '|' ∉ c) (hb : '|' ∉ b) :
    splitPipe (mkRow d t a c b) = [[], d, t, a, c, b, ['\n']] := by
  unfold mkRow
  simp only [List.cons_append, List.append_assoc]
  rw [splitPipe_cons_pipe, splitPipe_field d _ hd, splitPipe_field t _ ht,
    splitPipe_field a _ ha, splitPipe_field c _ hc, splitPipe_field b _ hb]
  rfl

theorem parse_mkRow (d t a c b : List Char) (hd : '|' ∉ d) (ht : '|' ∉ t)
    (ha : '|' ∉ a) (hc : '|' ∉ c) (hb : '|' ∉ b) :
    parse_arxiv_string (mkRow d t a c b)
      = some (stripChars d, stripChars t, subVDigits (stripChars a),
          stripChars c, stripChars b) := by
  unfold parse_arxiv_string
  rw [splitPipe_mkRow d t a c b hd ht ha hc hb]
  rfl

/-- C1 amended: only the repair merge is link-monotone, and there under the
code's own valid-link test: for every stored record that parses and whose
re-serialized form does not contain `"|null|"`, the repair pass keeps the
record's code field exactly (the other fields are re-stripped in place).
The harvest merge offers no such protection (see the counterexample). -/
theorem C1_amended (registry : Registry) (k s : String) (d t aid code ab : List Char)
    (hparse : parse_arxiv_string s.data = some (d, t, aid, code, ab))
    (hvalid : hasNullMarker (mkRow d t aid code ab) = false) :
    ∃ s2 d2 t2 a2 b2, repairRecord registry k s = .ok s2 ∧
      parse_arxiv_string s2.data = some (d2, t2, a2, code, b2) := by
  have hparse0 := hparse
  unfold parse_arxiv_string at hparse
  cases h1 : (splitPipe s.data)[1]? with
  | none => rw [h1] at hparse; simp at hparse
  | some p1 =>
  cases h2 : (splitPipe s.data)[2]? with
  | none => rw [h1, h2] at hparse; simp at hparse
  | some p2 =>
  cases h3 : (splitPipe s.data)[3]? with
  | none => rw [h1, h2, h3] at hparse; simp at hparse
  | some p3 =>
  cases h4 : (splitPipe s.data)[4]? with
  | none => rw [h1, h2, h3, h4] at hparse; simp at hparse
  | some p4 =>
  cases h5 : (splitPipe s.data)[5]? with
  | none => rw [h1, h2, h3, h4, h5] at hparse; simp at hparse
  | some p5 =>
  rw [h1, h2, h3, h4, h5] at hparse
  simp only [Option.some.injEq, Prod.mk.injEq] at hparse
  obtain ⟨hd1, ht1, ha1, hc1, hb1⟩ := hparse
  have hnp : ∀ p : List Char, p ∈ splitPipe s.data → '|' ∉ p := mem_splitPipe_no_pipe s.data
  have hd2 : '|' ∉ d := fun hm =>
    hnp p1 (List.getElem?_mem h1) (mem_stripChars _ _ (hd1 ▸ hm))
  have ht2 : '|' ∉ t := fun hm =>
    hnp p2 (List.getElem?_mem h2) (mem_stripChars _ _ (ht1 ▸ hm))
  have ha2 : '|' ∉ aid := fun hm =>
    hnp p3 (List.getElem?_mem h3)
      (mem_stripChars _ _ (mem_subVDigits _ _ (ha1 ▸ hm)))
  have hc2 : '|' ∉ code := fun hm =>
    hnp p4 (List.getElem?_mem h4) (mem_stripChars _ _ (hc1 ▸ hm))
  have hb2 : '|' ∉ ab := fun hm =>
    hnp p5 (List.getElem?_mem h5) (mem_stripChars _ _ (hb1 ▸ hm))
  have hcode : stripChars code = code := by
    rw [← hc1, stripChars_idem]
  have hrr : repairRecord registry k s = .ok ⟨mkRow d t aid code ab⟩ := by
    unfold repairRecord
    rw [hparse0]
    simp [hvalid]
  refine ⟨⟨mkRow d t aid code ab⟩, stripChars d, stripChars t,
    subVDigits (stripChars aid), stripChars ab, hrr, ?_⟩
  show parse_arxiv_string (mkRow d t aid code ab) = _
  rw [parse_mkRow d t aid code ab hd2 ht2 ha2 hc2 hb2, hcode]

set_option maxRecDepth 8000 in
/-- Witness for C1 amended at a concrete record with a present code link. -/
theorem C1_amended_witness :
    ∃ s2 d2 t2 a2 b2,
      repairRecord (fun _ => .ok none) "2401.00001"
          "|**2024-01-03**|**T**|[2401.00001](http://arxiv.org/abs/2401.00001)|**[link](https://github.com/x/y)**|**A**|\n"
        = .ok s2 ∧
      parse_arxiv_string s2.data
        = some (d2, t2, a2, "**[link](https://github.com/x/y)**".data, b2) :=
  C1_amended (fun _ => .ok none) "2401.00001"
    "|**2024-01-03**|**T**|[2401.00001](http://arxiv.org/abs/2401.00001)|**[link](https://github.com/x/y)**|**A**|\n"
    "**2024-01-03**".data "**T**".data
    "[2401.00001](http://arxiv.org/abs/2401.00001)".data
    "**[link](https://github.com/x/y)**".data "**A**".data
    (by decide) (by decide)

set_option maxRecDepth 8000 in
/-- C6 counterexample: the repair pass re-parses and re-serializes every
record in place; a record whose abstract contains the field delimiter `|`
is truncated at that delimiter, so the stored abstract is changed even
though the record's code link was already present and needed no repair. -/
theorem C6_counterexample :
    update_paper_links_data (fun _ => .ok none)
        [("t", [("2401.00001",
          "|**2024-01-01**|**T**|[2401.00001](http://arxiv.org/abs/2401.00001)|**[link](https://github.com/x/y)**|**a|b**|\n")])]
      = .ok [("t", [("2401.00001",
          "|**2024-01-01**|**T**|[2401.00001](http://arxiv.org/abs/2401.00001)|**[link](https://github.com/x/y)**|**a|\n")])] ∧
      ("|**2024-01-01**|**T**|[2401.00001](http://arxiv.org/abs/2401.00001)|**[link](https://github.com/x/y)**|**a|\n" : String)
        ≠ "|**2024-01-01**|**T**|[2401.00001](http://arxiv.org/abs/2401.00001)|**[link](https://github.com/x/y)**|**a|b**|\n" := by
  refine ⟨by rfl, by decide⟩

set_option maxRecDepth 8000 in
/-- C6 amended: for records already in canonical serialized form
(re-serializing the parsed fields reproduces the record), the repair pass
returns the record unchanged whenever it passes the valid-link test — in
particular abstracts and titles are untouched; and for a canonical record
whose code field is the `null` marker, a successfully resolved link replaces
exactly that marker, leaving date, title, id and abstract unchanged (shown
at a concrete record). A record that is not canonical (e.g. an abstract
containing `|`) can lose data (see the counterexample). -/
theorem C6_amended (registry : Registry) (k s : String) (d t aid code ab : List Char)
    (hparse : parse_arxiv_string s.data = some (d, t, aid, code, ab))
    (hcanon : mkRow d t aid code ab = s.data)
    (hvalid : hasNullMarker s.data = false) :
    repairRecord registry k s = .ok s ∧
      repairRecord (fun _ => .ok (some "https://github.com/u/r")) "2401.00002"
          "|**2024-01-02**|**T2**|[2401.00002](http://arxiv.org/abs/2401.00002)|null|**A2**|\n"
        = .ok "|**2024-01-02**|**T2**|[2401.00002](http://arxiv.org/abs/2401.00002)|**[link](https://github.com/u/r)**|**A2**|\n" := by
  constructor
  · unfold repairRecord
    rw [hparse]
    simp only [hcanon, hvalid]
    rfl
  · rfl

set_option maxRecDepth 8000 in
/-- Witness for C6 amended at a concrete canonical record that passes the
valid-link test. -/
theorem C6_amended_witness :
    repairRecord (fun _ => .ok none) "2401.00003"
        "|**2024-01-03**|**T3**|[2401.00003](http://arxiv.org/abs/2401.00003)|**[link](https://github.com/a/b)**|**A3**|\n"
      = .ok "|**2024-01-03**|**T3**|[2401.00003](http://arxiv.org/abs/2401.00003)|**[link](https://github.com/a/b)**|**A3**|\n" :=
  (C6_amended (fun _ => .ok none) "2401.00003"
    "|**2024-01-03**|**T3**|[2401.00003](http://arxiv.org/abs/2401.00003)|**[link](https://github.com/a/b)**|**A3**|\n"
    "**2024-01-03**".data "**T3**".data
    "[2401.00003](http://arxiv.org/abs/2401.00003)".data
    "**[link](https://github.com/a/b)**".data "**A3**".data
    (by decide) (by decide) (by decide)).1

/-- C3 counterexample: a store file that is absent raises FileNotFoundError
and a non-empty malformed one raises a JSON decode error; neither loads as
the empty store, so the run does not proceed. -/
theorem C3_counterexample :
    loadStore none = .error .fileNotFound ∧
      loadStore (some "not json") = .error .jsonDecodeError ∧
      loadStore none ≠ .ok [] ∧ loadStore (some "not json") ≠ .ok [] := by
  refine ⟨rfl, by rfl, fun h => ?_, fun h => ?_⟩
  · rw [show loadStore none = .error .fileNotFound from rfl] at h
    exact Except.noConfusion h
  · rw [show loadStore (some "not json") = .error .jsonDecodeError from rfl] at h
    exact Except.noConfusion h

/-- C3 amended: only a zero-byte store file loads as the empty store. An
absent or unreadable file raises FileNotFoundError, and non-empty contents
that fail JSON parsing raise a decode error; both escape uncaught from
every load site, aborting the run instead of proceeding with an empty
store. Well-formed contents load normally. -/
theorem C3_amended (c : String) (hc : c ≠ "") (hbad : jsonLoadsStore c = none) :
    loadStore (some "") = .ok [] ∧
      loadStore none = .error .fileNotFound ∧
      loadStore (some c) = .error .jsonDecodeError ∧
      loadStore (some "\x7b\"nerf\": \x7b\"2401.00001\": \"|**r**|\"\x7d\x7d")
        = .ok [("nerf", [("2401.00001", "|**r**|")])] := by
  refine ⟨rfl, rfl, ?_, by rfl⟩
  have hred : loadStore (some c) =
      if c = "" then .ok [] else
        match jsonLoadsStore c with
        | some m => .ok m
        | none => .error .jsonDecodeError := rfl
  rw [hred, if_neg hc, hbad]

/-- Witness for C3 amended at a concrete malformed store file. -/
theorem C3_amended_witness :
    loadStore (some "not json") = .error .jsonDecodeError :=
  (C3_amended "not json" (by decide) (by rfl)).2.2.1

/-- C4 counterexample: a failing harvest call for the first topic aborts
the whole run — the second topic, whose harvest would have succeeded, is
never collected, instead of being the only survivor of a logged skip. -/
theorem C4_counterexample :
    demo_harvest
        (fun tk => if tk.1 = "nerf" then .error "arxiv unavailable"
          else .ok [(tk.1, [])])
        [("nerf", "abs:(Radiance Fields)"), ("slam", "slam")]
      = .error "arxiv unavailable" ∧
      (fun (tk : String × String) => if tk.1 = "nerf" then
          (.error "arxiv unavailable" : Except String Store)
        else .ok [(tk.1, [])]) ("slam", "slam") = .ok [("slam", [])] := by
  refine ⟨by rfl, by rfl⟩

/-- Any failing topic in the keyword sequence, preceded by only succeeding
topics, makes the collector loop return that error whatever was already
collected. -/
theorem demo_collect_error (harvest : String × String → Except String Store)
    (pre post : List (String × String)) (tk : String × String) (e : String)
    (hpre : ∀ x ∈ pre, ∃ d, harvest x = .ok d) (hfail : harvest tk = .error e) :
    ∀ acc, demo_collect harvest (pre ++ tk :: post) acc = .error e := by
  induction pre with
  | nil =>
      intro acc
      show demo_collect harvest (tk :: post) acc = .error e
      unfold demo_collect
      rw [hfail]
  | cons x pre2 ih =>
      intro acc
      obtain ⟨d, hd⟩ := hpre x (List.mem_cons_self ..)
      rw [List.cons_append]
      unfold demo_collect
      rw [hd]
      exact ih (fun y hy => hpre y (List.mem_cons_of_mem _ hy)) (acc ++ [d])

/-- C4 amended: there is no handler around the per-topic harvest call in
`demo`: when the harvest call for one topic raises, the exception
propagates out of the topic loop and the run aborts — the remaining topics
are not harvested, rather than the failing topic alone being skipped. -/
theorem C4_amended (harvest : String × String → Except String Store)
    (pre post : List (String × String)) (tk : String × String) (e : String)
    (hpre : ∀ x ∈ pre, ∃ d, harvest x = .ok d) (hfail : harvest tk = .error e) :
    demo_harvest harvest (pre ++ tk :: post) = .error e :=
  demo_collect_error harvest pre post tk e hpre hfail []

/-- Witness for C4 amended: first topic succeeds, second raises, third
would succeed; the run returns the raised error. -/
theorem C4_amended_witness :
    demo_harvest
        (fun tk => if tk.1 = "ocr" then .error "ConnectionResetError"
          else .ok [(tk.1, [])])
        [("nerf", "q1"), ("ocr", "q2"), ("slam", "q3")]
      = .error "ConnectionResetError" :=
  C4_amended _ [("nerf", "q1")] [("slam", "q3")] ("ocr", "q2") _
    (fun x hx => by
      rw [List.mem_singleton] at hx
      exact ⟨[("nerf", [])], by rw [hx]; rfl⟩)
    rfl

/-- C10: `pretty_math` returns the input unchanged when the line has no
`$…$` span; when the matched span is strictly interior (at least one
character on each side) it returns normally; and whenever the match starts
at the first character or ends at the last one, the function indexes an
empty slice and raises instead of returning. -/
theorem C10_pretty_math_boundary (s : String) :
    (findDollarMatch s.data = none → pretty_math s = some s) ∧
    (∀ a b, findDollarMatch s.data = some (a, b) →
      ((a = 0 ∨ b = s.data.length) → pretty_math s = none) ∧
      (0 < a → b < s.data.length → (pretty_math s).isSome = true)) := by
  constructor
  · intro hm
    unfold pretty_math
    rw [hm]
  · intro a b hab
    constructor
    · rintro (ha | hb)
      · subst ha
        unfold pretty_math
        rw [hab]
        simp
      · subst hb
        unfold pretty_math
        rw [hab]
        have hnone : s.data[s.length]? = none := List.getElem?_eq_none (Nat.le_refl _)
        cases hpre : (s.data.take a).getLast? <;>
          simp [hpre, List.drop_length, hnone]
    · intro ha hb
      have hs : s.data ≠ [] := by
        intro hE
        rw [hE] at hb
        simp at hb
      have hpre : s.data.take a ≠ [] := by
        rw [Ne, List.take_eq_nil_iff]
        push_neg
        exact ⟨Nat.pos_iff_ne_zero.mp ha, hs⟩
      obtain ⟨c1, hc1⟩ := Option.ne_none_iff_exists'.mp
        (fun hE => hpre (List.getLast?_eq_none_iff.mp hE))
      have hsuf : s.data.drop b ≠ [] := by
        rw [Ne, List.drop_eq_nil_iff]
        omega
      obtain ⟨c2, hc2⟩ := Option.ne_none_iff_exists'.mp
        (fun hE => hsuf (List.head?_eq_none_iff.mp hE))
      unfold pretty_math
      rw [hab]
      simp [hc1, hc2]

/-- Witness for C10 at the input "$x$", whose match starts at character 0:
the renderer step raises instead of returning. -/
theorem C10_pretty_math_boundary_witness : pretty_math "$x$" = none :=
  ((C10_pretty_math_boundary "$x$").2 0 3 rfl).1 (Or.inl rfl)

/-- C5 counterexample: the renderer sorts by canonical id, not by
`update_date`: with key order opposite to date order, the emitted sequence
puts the 2024-01-01 record before the 2024-01-03 one, which is not
descending by date. -/
theorem C5_counterexample :
    render_rows
        [("2401.00009", "|**2024-01-01**|**A**|[x](y)|null|**a**|\n"),
         ("2401.00001", "|**2024-01-03**|**B**|[x](y)|null|**b**|\n")]
      = some ["|**2024-01-01**|**A**|[x](y)|null|**a**|\n",
              "|**2024-01-03**|**B**|[x](y)|null|**b**|\n"] ∧
      row_update_date "|**2024-01-01**|**A**|[x](y)|null|**a**|\n"
        = some "**2024-01-01**" ∧
      row_update_date "|**2024-01-03**|**B**|[x](y)|null|**b**|\n"
        = some "**2024-01-03**" ∧
      charsLe "**2024-01-03**".data "**2024-01-01**".data = false := by
  refine ⟨by rfl, by rfl, by rfl, by decide⟩

/-! Order and membership facts for the descending key sort. -/

theorem charsLe_total (a b : List Char) : charsLe a b = true ∨ charsLe b a = true := by
  induction a generalizing b with
  | nil => left; rfl
  | cons x xs ih =>
      cases b with
      | nil => right; rfl
      | cons y ys =>
          by_cases h1 : x.toNat < y.toNat
          · left; simp [charsLe, h1]
          · by_cases h2 : y.toNat < x.toNat
            · right; simp [charsLe, h2]
            · rcases ih ys with h | h
              · left; simp [charsLe, h1, h2, h]
              · right; simp [charsLe, h1, h2, h]

theorem charsLe_trans (a b c : List Char) (h1 : charsLe a b = true)
    (h2 : charsLe b c = true) : charsLe a c = true := by
  induction a generalizing b c with
  | nil => rfl
  | cons x xs ih =>
      cases b with
      | nil => simp [charsLe] at h1
      | cons y ys =>
          cases c with
          | nil => simp [charsLe] at h2
          | cons z zs =>
              simp only [charsLe] at h1 h2 ⊢
              by_cases hxy : x.toNat < y.toNat
              · by_cases hyz : y.toNat < z.toNat
                · have hxz : x.toNat < z.toNat := by omega
                  simp [hxz]
                · by_cases hzy : z.toNat < y.toNat
                  · rw [if_neg hyz, if_pos hzy] at h2
                    exact absurd h2 (by simp)
                  · have hxz : x.toNat < z.toNat := by omega
                    simp [hxz]
              · by_cases hyx : y.toNat < x.toNat
                · rw [if_neg hxy, if_pos hyx] at h1
                  exact absurd h1 (by simp)
                · rw [if_neg hxy, if_neg hyx] at h1
                  by_cases hyz : y.toNat < z.toNat
                  · have hxz : x.toNat < z.toNat := by omega
                    simp [hxz]
                  · by_cases hzy : z.toNat < y.toNat
                    · rw [if_neg hyz, if_pos hzy] at h2
                      exact absurd h2 (by simp)
                    · rw [if_neg hyz, if_neg hzy] at h2
                      have hnx : ¬ x.toNat < z.toNat := by omega
                      have hnz : ¬ z.toNat < x.toNat := by omega
                      rw [if_neg hnx, if_neg hnz]
                      exact ih ys zs h1 h2

theorem keyGe_total (a b : String) : keyGe a b = true ∨ keyGe b a = true :=
  (charsLe_total b.data a.data).imp id id

theorem keyGe_trans (a b c : String) (h1 : keyGe a b = true) (h2 : keyGe b c = true) :
    keyGe a c = true :=
  charsLe_trans c.data b.data a.data h2 h1

theorem mem_insertDesc (k x : String) (l : List String) :
    x ∈ insertDesc k l ↔ x = k ∨ x ∈ l := by
  induction l with
  | nil => simp [insertDesc]
  | cons y ys ih =>
      unfold insertDesc
      by_cases h : keyGe k y
      · simp [h]
      · simp [h, List.mem_cons, ih]
        tauto

theorem pairwise_insertDesc (k : String) (l : List String)
    (h : List.Pairwise (fun a b => keyGe a b = true) l) :
    List.Pairwise (fun a b => keyGe a b = true) (insertDesc k l) := by
  induction l with
  | nil => simp [insertDesc]
  | cons y ys ih =>
      rw [List.pairwise_cons] at h
      unfold insertDesc
      by_cases hk : keyGe k y
      · rw [if_pos hk, List.pairwise_cons]
        refine ⟨?_, List.pairwise_cons.mpr h⟩
        intro z hz
        rcases List.mem_cons.mp hz with hz | hz
        · exact hz ▸ hk
        · exact keyGe_trans k y z hk (h.1 z hz)
      · rw [if_neg hk, List.pairwise_cons]
        refine ⟨?_, ih h.2⟩
        intro z hz
        rcases (mem_insertDesc k z ys).mp hz with hz | hz
        · rw [hz]
          rcases keyGe_total k y with hky | hyk
          · exact absurd hky hk
          · exact hyk
        · exact h.1 z hz

theorem pairwise_sortDesc (l : List String) :
    List.Pairwise (fun a b => keyGe a b = true) (sortDesc l) := by
  induction l with
  | nil => exact List.Pairwise.nil
  | cons k ks ih => exact pairwise_insertDesc k (sortDesc ks) ih

theorem mem_sortDesc (l : List String) (x : String) : x ∈ sortDesc l ↔ x ∈ l := by
  induction l with
  | nil => simp [sortDesc]
  | cons k ks ih =>
      unfold sortDesc
      rw [mem_insertDesc, ih, List.mem_cons]

theorem alookup_of_mem_dkeys {V : Type} (m : PyDict V) (a : String) (h : a ∈ dkeys m) :
    ∃ v, alookup m a = some v := by
  induction m with
  | nil => simp at h
  | cons hd t ih =>
      obtain ⟨k0, v0⟩ := hd
      by_cases hk : a = k0
      · exact ⟨v0, by simp [alookup_cons, hk]⟩
      · simp only [dkeys_cons, List.mem_cons] at h
        rcases h with h | h
        · exact absurd h hk
        · obtain ⟨v, hv⟩ := ih h
          exact ⟨v, by simp [alookup_cons, hk, hv]⟩

theorem alookup_of_mem_nodup {V : Type} (m : PyDict V) (k : String) (v : V)
    (hnd : (dkeys m).Nodup) (h : (k, v) ∈ m) : alookup m k = some v := by
  induction m with
  | nil => simp at h
  | cons hd t ih =>
      obtain ⟨k0, v0⟩ := hd
      simp only [dkeys_cons, List.nodup_cons] at hnd
      rcases List.mem_cons.mp h with h1 | h1
      · injection h1 with hk hv
        subst hk
        subst hv
        simp [alookup_cons]
      · have hk : k ≠ k0 := by
          intro hE
          subst hE
          exact hnd.1 (List.mem_map_of_mem Prod.fst h1)
        simp only [alookup_cons, if_neg hk]
        exact ih hnd.2 h1

/-- Rebuilding a dict along a key list whose every key resolves keeps
exactly that key list. -/
theorem map_fst_filterMap_alookup (papers : Bucket) (l : List String)
    (h : ∀ k ∈ l, ∃ v, alookup papers k = some v) :
    (l.filterMap (fun k => (alookup papers k).map (fun v => (k, v)))).map Prod.fst = l := by
  induction l with
  | nil => rfl
  | cons k l2 ih =>
      obtain ⟨v, hv⟩ := h k (List.mem_cons_self ..)
      rw [List.filterMap_cons]
      simp only [hv, Option.map_some']
      rw [List.map_cons, ih (fun y hy => h y (List.mem_cons_of_mem _ hy))]

/-- C5 amended: within each topic the renderer emits records sorted by
canonical id — the bucket key — in descending code-point order, not by
`update_date`: the key sequence of `sort_papers` is the descending sort of
the bucket's keys, pairwise descending, and the emitted records are exactly
the bucket's records. The three dates of the claim's example appear in
descending date order only when their keys sort accordingly (the
counterexample shows keys that do not). -/
theorem C5_amended (papers : Bucket) (hnd : (dkeys papers).Nodup) :
    dkeys (sort_papers papers) = sortDesc (dkeys papers) ∧
      List.Pairwise (fun a b => keyGe a b = true) (dkeys (sort_papers papers)) ∧
      (∀ k v, (k, v) ∈ sort_papers papers ↔ (k, v) ∈ papers) := by
  have hkeys : dkeys (sort_papers papers) = sortDesc (dkeys papers) := by
    unfold sort_papers
    show (List.filterMap _ _).map Prod.fst = _
    exact map_fst_filterMap_alookup papers (sortDesc (dkeys papers))
      (fun k hk => alookup_of_mem_dkeys papers k ((mem_sortDesc _ k).mp hk))
  refine ⟨hkeys, hkeys ▸ pairwise_sortDesc (dkeys papers), ?_⟩
  intro k v
  constructor
  · intro hmem
    unfold sort_papers at hmem
    obtain ⟨k2, hk2, hmap⟩ := List.mem_filterMap.mp hmem
    cases halk : alookup papers k2 with
    | none => rw [halk] at hmap; simp at hmap
    | some w =>
        rw [halk] at hmap
        simp only [Option.map_some', Option.some.injEq] at hmap
        injection hmap with h1 h2
        subst h1
        subst h2
        exact mem_of_alookup_eq_some papers k2 w halk
  · intro hmem
    have hk : k ∈ dkeys papers := List.mem_map_of_mem Prod.fst hmem
    have halk : alookup papers k = some v := alookup_of_mem_nodup papers k v hnd hmem
    unfold sort_papers
    exact List.mem_filterMap.mpr ⟨k, (mem_sortDesc _ k).mpr hk, by rw [halk]; rfl⟩

/-- Witness for C5 amended at a concrete two-record bucket. -/
theorem C5_amended_witness :
    dkeys (sort_papers [("2401.00001", "r1"), ("2401.00009", "r2")])
      = sortDesc (dkeys [("2401.00001", "r1"), ("2401.00009", "r2")]) :=
  (C5_amended [("2401.00001", "r1"), ("2401.00009", "r2")] (by decide)).1
